import Mathlib

/-!
Verification of the mortgage-calculator repository.

The repository's source under version control is a single packaging
descriptor, `setup.py`.  We embed that descriptor (its statement list and
the two computations it performs: parsing `requirements.txt` and splitting
the result into core and dev dependency groups).  The amortization engine
described by the specification is not present in the source tree, so it is
modelled from the specification's own algorithm description, over exact
rational arithmetic.
-/

/-! ## Embedding of `setup.py` -/

/-- The kinds of top-level statements a Python module such as `setup.py`
can contain, at the granularity needed here.  `funcDef` and `classDef`
record definitions of functions and classes; loops record iteration
constructs. -/
inductive PyStmt where
  | importFrom (module : String) (names : List String)
  | withOpenReadAssign (file varName : String)
  | withOpenFilterAssign (file varName : String)
  | exprCallSetup
  | funcDef (name : String)
  | classDef (name : String)
  | whileLoop
  | forLoop
deriving DecidableEq, Repr

/-- The statement list of `src/setup.py`: an import of `setup` and
`find_packages` from setuptools, the read of `README.md` into
`long_description`, the filtered read of `requirements.txt` into
`requirements`, and the single `setup()` call. -/
def setupPyModule : List PyStmt :=
  [ PyStmt.importFrom "setuptools" ["setup", "find_packages"],
    PyStmt.withOpenReadAssign "README.md" "long_description",
    PyStmt.withOpenFilterAssign "requirements.txt" "requirements",
    PyStmt.exprCallSetup ]

/-- The names of functions defined by a module's statements. -/
def definedFunctions (m : List PyStmt) : List String :=
  m.filterMap fun s =>
    match s with
    | PyStmt.funcDef n => some n
    | _ => none

/-- The names of classes defined by a module's statements. -/
def definedClasses (m : List PyStmt) : List String :=
  m.filterMap fun s =>
    match s with
    | PyStmt.classDef n => some n
    | _ => none

/-- Whether a module statement is a loop construct. -/
def isLoopStmt (s : PyStmt) : Bool :=
  match s with
  | PyStmt.whileLoop => true
  | PyStmt.forLoop => true
  | _ => false

/-- Python's default `str.strip` character class (ASCII whitespace). -/
def pyIsSpace (c : Char) : Bool :=
  c = ' ' || c = '\t' || c = '\n' || c = '\r' || c = '\x0b' || c = '\x0c'

/-- Python's `line.strip()`: remove leading and trailing whitespace. -/
def pyStrip (s : String) : String :=
  String.mk (((s.data.dropWhile pyIsSpace).reverse.dropWhile pyIsSpace).reverse)

/-- Python's `line.startswith("#")` on the raw (unstripped) line. -/
def startsWithHash (s : String) : Bool :=
  match s.data with
  | [] => false
  | c :: _ => c = '#'

/-- Line 11 of `setup.py`:
`[line.strip() for line in fh if line.strip() and not line.startswith("#")]`.
A line is kept when it is non-blank after stripping and its raw form does
not begin with `#`; kept lines are stripped. -/
def parseRequirements (lines : List String) : List String :=
  (lines.filter fun l => pyStrip l ≠ "" && !startsWithHash l).map pyStrip

/-- The same list described the way the specification of the comprehension
reads: for each line in order, emit its stripped form exactly when the
stripped form is non-empty and the raw line does not start with `#`. -/
def reqSpec (lines : List String) : List String :=
  lines.filterMap fun l =>
    if pyStrip l ≠ "" ∧ startsWithHash l = false then some (pyStrip l) else none

/-- Line 36 of `setup.py`: `install_requires=requirements[:3]`. -/
def installRequires (lines : List String) : List String :=
  (parseRequirements lines).take 3

/-- Line 38 of `setup.py`: `"dev": requirements[3:]`. -/
def devRequires (lines : List String) : List String :=
  (parseRequirements lines).drop 3

/-! ## Amortization engine, modelled from the specification -/

/-- Modelled from the spec: the source tree holds only `setup.py`, so the
`LoanTerms` input record of the amortization engine (spec §3) is taken
from the specification's data model. -/
structure LoanTerms where
  principal : ℚ
  annualInterestRate : ℚ
  termMonths : ℕ
deriving DecidableEq, Repr

/-- Modelled from the spec: the error raised when an input constraint of
spec §4.1 is violated; it carries the offending field. -/
inductive InvalidInputError where
  | invalidPrincipal
  | invalidTermMonths
  | invalidRate
deriving DecidableEq, Repr

/-- The input constraints of spec §4.1: `principal` > 0, `termMonths` ≥ 1,
`annualInterestRate` ≥ 0. -/
def validTerms (t : LoanTerms) : Prop :=
  0 < t.principal ∧ 1 ≤ t.termMonths ∧ 0 ≤ t.annualInterestRate

instance (t : LoanTerms) : Decidable (validTerms t) := by
  unfold validTerms; infer_instance

/-- Modelled from the spec: validation at the call boundary; each violated
constraint yields `InvalidInputError` naming the offending field, before
anything is computed. -/
def checkTerms (t : LoanTerms) : Except InvalidInputError Unit :=
  if t.principal ≤ 0 then Except.error InvalidInputError.invalidPrincipal
  else if t.termMonths < 1 then Except.error InvalidInputError.invalidTermMonths
  else if t.annualInterestRate < 0 then Except.error InvalidInputError.invalidRate
  else Except.ok ()

/-- Modelled from the spec (§4.1): the payment for valid terms.  Zero rate
gives `principal / termMonths`; otherwise the standard amortization formula
with periodic rate `r = annualInterestRate / 12`. -/
def monthlyPaymentOf (t : LoanTerms) : ℚ :=
  if t.annualInterestRate = 0 then t.principal / t.termMonths
  else
    let r := t.annualInterestRate / 12
    t.principal * r * (1 + r) ^ t.termMonths / ((1 + r) ^ t.termMonths - 1)

/-- Modelled from the spec: `computeMonthlyPayment(terms)`, which validates
its input and then returns the payment. -/
def computeMonthlyPayment (t : LoanTerms) : Except InvalidInputError ℚ :=
  match checkTerms t with
  | Except.error e => Except.error e
  | Except.ok _ => Except.ok (monthlyPaymentOf t)

/-- Modelled from the spec: one period of the amortization schedule
(spec §3). -/
structure AmortizationEntry where
  periodIndex : ℕ
  paymentAmount : ℚ
  interestPortion : ℚ
  principalPortion : ℚ
  remainingBalance : ℚ
deriving DecidableEq, Repr

/-- Modelled from the spec (§4.1 `buildSchedule` algorithm): the period
loop.  `k` is the number of periods still to produce, `idx` the 1-based
index of the next period, `B` the running balance.  Each period's interest
is `B * r`; the principal portion is `payment − interest` capped at the
remaining balance; on the final period the remaining balance is forced to
exactly 0 by assigning the remainder to that period's principal portion. -/
def scheduleAux (A r : ℚ) : ℕ → ℕ → ℚ → List AmortizationEntry
  | 0, _, _ => []
  | k + 1, idx, B =>
    let interest := B * r
    if k = 0 then
      [⟨idx, interest + B, interest, B, 0⟩]
    else
      let princ := min (A - interest) B
      let newBal := B - princ
      ⟨idx, A, interest, princ, newBal⟩ :: scheduleAux A r k (idx + 1) newBal

/-- Modelled from the spec: `buildSchedule(terms)`, which validates its
input and then produces the `termMonths`-entry schedule eagerly, starting
from balance `principal`. -/
def buildSchedule (t : LoanTerms) : Except InvalidInputError (List AmortizationEntry) :=
  match checkTerms t with
  | Except.error e => Except.error e
  | Except.ok _ =>
      Except.ok (scheduleAux (monthlyPaymentOf t) (t.annualInterestRate / 12)
        t.termMonths 1 t.principal)

/-- Partial sums of the geometric series `1 + q + … + q^(k-1)`. -/
def geomSum (q : ℚ) : ℕ → ℚ
  | 0 => 0
  | k + 1 => geomSum q k + q ^ k

/-! ## Geometric-sum lemmas -/

theorem geomSum_nonneg (q : ℚ) (hq : 0 ≤ q) : ∀ k, 0 ≤ geomSum q k
  | 0 => le_refl 0
  | k + 1 => add_nonneg (geomSum_nonneg q hq k) (pow_nonneg hq k)

theorem geomSum_one : ∀ k : ℕ, geomSum 1 k = k
  | 0 => rfl
  | k + 1 => by
    have ih := geomSum_one k
    simp [geomSum, ih]

theorem mul_geomSum (q : ℚ) : ∀ k, (q - 1) * geomSum q k = q ^ k - 1
  | 0 => by simp [geomSum]
  | k + 1 => by
    have ih := mul_geomSum q k
    calc (q - 1) * geomSum q (k + 1)
        = (q - 1) * geomSum q k + (q - 1) * q ^ k := by rw [geomSum]; ring
      _ = q ^ k - 1 + (q - 1) * q ^ k := by rw [ih]
      _ = q ^ (k + 1) - 1 := by ring

theorem pow_le_mul_geomSum (q : ℚ) (hq : 0 ≤ q) (k : ℕ) (hk : 1 ≤ k) :
    q ^ k ≤ q * geomSum q k := by
  cases k with
  | zero => omega
  | succ j =>
    have h1 : 0 ≤ q * geomSum q j := mul_nonneg hq (geomSum_nonneg q hq j)
    calc q ^ (j + 1) ≤ q * geomSum q j + q ^ (j + 1) := by linarith
      _ = q * geomSum q (j + 1) := by rw [geomSum]; ring

/-! ## Invariant of the schedule loop

Throughout, `A` is the constant payment and `r` the periodic rate; the
invariant relating the balance `B` to the number `k` of periods still to
produce is `(1+r)^k * B = A * geomSum (1+r) k`. -/

theorem inv_B_nonneg (A r B : ℚ) (k : ℕ) (hr : 0 ≤ r) (hA : 0 ≤ A)
    (hInv : (1 + r) ^ k * B = A * geomSum (1 + r) k) : 0 ≤ B := by
  have hq : (0 : ℚ) < 1 + r := by linarith
  have hqk : (0 : ℚ) < (1 + r) ^ k := pow_pos hq k
  have h0 : 0 ≤ A * geomSum (1 + r) k :=
    mul_nonneg hA (geomSum_nonneg (1 + r) (by linarith) k)
  rw [← hInv] at h0
  by_contra hB
  push_neg at hB
  have : (1 + r) ^ k * B < 0 := mul_neg_of_pos_of_neg hqk hB
  linarith

theorem inv_rB_le_A (A r B : ℚ) (k : ℕ) (hr : 0 ≤ r) (hA : 0 ≤ A)
    (hInv : (1 + r) ^ k * B = A * geomSum (1 + r) k) : B * r ≤ A := by
  have hq : (0 : ℚ) < 1 + r := by linarith
  have hqk : (0 : ℚ) < (1 + r) ^ k := pow_pos hq k
  have key : (1 + r) ^ k * (B * r) = A * ((1 + r) ^ k - 1) := by
    calc (1 + r) ^ k * (B * r) = r * ((1 + r) ^ k * B) := by ring
      _ = r * (A * geomSum (1 + r) k) := by rw [hInv]
      _ = A * ((1 + r - 1) * geomSum (1 + r) k) := by ring
      _ = A * ((1 + r) ^ k - 1) := by rw [mul_geomSum]
  have hle : A * ((1 + r) ^ k - 1) ≤ A * (1 + r) ^ k :=
    mul_le_mul_of_nonneg_left (by linarith) hA
  have h2 : (1 + r) ^ k * (B * r) ≤ (1 + r) ^ k * A := by
    rw [key]; linarith [hle]
  exact le_of_mul_le_mul_left h2 hqk

theorem inv_A_le_qB (A r B : ℚ) (k : ℕ) (hr : 0 ≤ r) (hA : 0 ≤ A) (hk : 1 ≤ k)
    (hInv : (1 + r) ^ k * B = A * geomSum (1 + r) k) : A ≤ (1 + r) * B := by
  have hq : (0 : ℚ) < 1 + r := by linarith
  have hqk : (0 : ℚ) < (1 + r) ^ k := pow_pos hq k
  have h1 : (1 + r) ^ k ≤ (1 + r) * geomSum (1 + r) k :=
    pow_le_mul_geomSum (1 + r) (by linarith) k hk
  have h2 : A * (1 + r) ^ k ≤ A * ((1 + r) * geomSum (1 + r) k) :=
    mul_le_mul_of_nonneg_left h1 hA
  have h3 : A * ((1 + r) * geomSum (1 + r) k) = (1 + r) ^ k * ((1 + r) * B) := by
    have h4 : A * ((1 + r) * geomSum (1 + r) k) = (1 + r) * (A * geomSum (1 + r) k) := by
      ring
    rw [h4, ← hInv]; ring
  have h5 : (1 + r) ^ k * A ≤ (1 + r) ^ k * ((1 + r) * B) := by
    rw [← h3]; linarith [h2]
  exact le_of_mul_le_mul_left h5 hqk

theorem inv_step (A r B : ℚ) (k : ℕ)
    (hInv : (1 + r) ^ (k + 1) * B = A * geomSum (1 + r) (k + 1)) :
    (1 + r) ^ k * (B - (A - B * r)) = A * geomSum (1 + r) k := by
  calc (1 + r) ^ k * (B - (A - B * r))
      = (1 + r) ^ (k + 1) * B - (1 + r) ^ k * A := by ring
    _ = A * geomSum (1 + r) (k + 1) - (1 + r) ^ k * A := by rw [hInv]
    _ = A * geomSum (1 + r) k := by rw [geomSum]; ring

/-! ## Structural lemmas about the schedule loop -/

theorem scheduleAux_length (A r : ℚ) :
    ∀ (k idx : ℕ) (B : ℚ), (scheduleAux A r k idx B).length = k := by
  intro k
  induction k with
  | zero => intro idx B; simp [scheduleAux]
  | succ k ih =>
    intro idx B
    by_cases hk : k = 0
    · subst hk; simp [scheduleAux]
    · simp [scheduleAux, hk, ih]

theorem scheduleAux_sum_principal (A r : ℚ) :
    ∀ (k idx : ℕ) (B : ℚ), 1 ≤ k →
      ((scheduleAux A r k idx B).map (fun e => e.principalPortion)).sum = B := by
  intro k
  induction k with
  | zero => omega
  | succ k ih =>
    intro idx B _
    by_cases hk : k = 0
    · subst hk; simp [scheduleAux]
    · have h1 : 1 ≤ k := by omega
      simp only [scheduleAux, if_neg hk, List.map_cons, List.sum_cons]
      rw [ih (idx + 1) _ h1]
      ring

theorem scheduleAux_last (A r : ℚ) :
    ∀ (k idx : ℕ) (B : ℚ) (e : AmortizationEntry),
      (scheduleAux A r k idx B).getLast? = some e → e.remainingBalance = 0 := by
  intro k
  induction k with
  | zero => intro idx B e he; simp [scheduleAux] at he
  | succ k ih =>
    intro idx B e he
    by_cases hk : k = 0
    · subst hk
      simp [scheduleAux] at he
      rw [← he]
    · rw [scheduleAux] at he
      simp only [if_neg hk] at he
      rcases hrec : scheduleAux A r k (idx + 1)
          (B - min (A - B * r) B) with _ | ⟨c, t⟩
      · have := scheduleAux_length A r k (idx + 1) (B - min (A - B * r) B)
        rw [hrec] at this
        simp at this
        omega
      · rw [hrec] at he
        rw [List.getLast?_cons_cons] at he
        exact ih (idx + 1) (B - min (A - B * r) B) e (by rw [hrec]; exact he)

theorem scheduleAux_entries (A r : ℚ) (hr : 0 ≤ r) (hA : 0 ≤ A) :
    ∀ (k idx : ℕ) (B : ℚ),
      (1 + r) ^ k * B = A * geomSum (1 + r) k →
      ∀ e ∈ scheduleAux A r k idx B,
        e.paymentAmount = A ∧
        e.interestPortion + e.principalPortion = e.paymentAmount := by
  intro k
  induction k with
  | zero => intro idx B _ e he; simp [scheduleAux] at he
  | succ k ih =>
    intro idx B hInv e he
    by_cases hk : k = 0
    · subst hk
      have hsch : scheduleAux A r 1 idx B = [⟨idx, B * r + B, B * r, B, 0⟩] := rfl
      rw [hsch, List.mem_singleton] at he
      subst he
      have h1 : (1 + r) * B = A := by
        have h2 := hInv
        simp [geomSum] at h2
        linarith [h2]
      refine ⟨?_, ?_⟩
      · show B * r + B = A
        linarith [h1]
      · rfl
    · have hcap : A ≤ (1 + r) * B := inv_A_le_qB A r B (k + 1) hr hA (by omega) hInv
      have hrB : B * r ≤ A := inv_rB_le_A A r B (k + 1) hr hA hInv
      have hmin : min (A - B * r) B = A - B * r := min_eq_left (by linarith)
      rw [scheduleAux] at he
      simp only [if_neg hk] at he
      rw [List.mem_cons] at he
      rcases he with he | he
      · subst he
        refine ⟨rfl, ?_⟩
        show B * r + min (A - B * r) B = A
        rw [hmin]; ring
      · rw [hmin] at he
        exact ih (idx + 1) (B - (A - B * r)) (inv_step A r B k hInv) e he

theorem scheduleAux_chain (A r : ℚ) (hr : 0 ≤ r) (hA : 0 ≤ A) :
    ∀ (k idx : ℕ) (B : ℚ),
      (1 + r) ^ k * B = A * geomSum (1 + r) k →
      List.Chain (fun x y => y ≤ x) B
        ((scheduleAux A r k idx B).map (fun e => e.remainingBalance)) := by
  intro k
  induction k with
  | zero => intro idx B _; simp [scheduleAux]
  | succ k ih =>
    intro idx B hInv
    by_cases hk : k = 0
    · subst hk
      have hsch : scheduleAux A r 1 idx B = [⟨idx, B * r + B, B * r, B, 0⟩] := rfl
      rw [hsch]
      have hB : 0 ≤ B := inv_B_nonneg A r B 1 hr hA hInv
      exact List.Chain.cons hB List.Chain.nil
    · have hcap : A ≤ (1 + r) * B := inv_A_le_qB A r B (k + 1) hr hA (by omega) hInv
      have hrB : B * r ≤ A := inv_rB_le_A A r B (k + 1) hr hA hInv
      have hmin : min (A - B * r) B = A - B * r := min_eq_left (by linarith)
      simp only [scheduleAux, if_neg hk, List.map_cons]
      rw [hmin]
      refine List.Chain.cons ?_ ?_
      · show B - (A - B * r) ≤ B
        linarith
      · exact ih (idx + 1) (B - (A - B * r)) (inv_step A r B k hInv)

theorem scheduleAux_interest_zero (A : ℚ) :
    ∀ (k idx : ℕ) (B : ℚ) (e : AmortizationEntry),
      e ∈ scheduleAux A 0 k idx B → e.interestPortion = 0 := by
  intro k
  induction k with
  | zero => intro idx B e he; simp [scheduleAux] at he
  | succ k ih =>
    intro idx B e he
    by_cases hk : k = 0
    · subst hk
      have hsch : scheduleAux A 0 1 idx B = [⟨idx, B * 0 + B, B * 0, B, 0⟩] := rfl
      rw [hsch, List.mem_singleton] at he
      subst he
      show B * 0 = 0
      ring
    · rw [scheduleAux] at he
      simp only [if_neg hk] at he
      rw [List.mem_cons] at he
      rcases he with he | he
      · subst he
        show B * 0 = 0
        ring
      · exact ih (idx + 1) _ e he

/-! ## Bridging lemmas between validation and the engine -/

theorem checkTerms_ok_iff (t : LoanTerms) :
    checkTerms t = Except.ok () ↔ validTerms t := by
  unfold checkTerms validTerms
  split_ifs with h1 h2 h3 <;> simp <;> push_neg at * <;> try omega
  · intro hP; linarith
  · intro hP hn; linarith
  · exact ⟨by linarith, by omega, by linarith⟩

theorem checkTerms_err (t : LoanTerms) (h : ¬ validTerms t) :
    ∃ e, checkTerms t = Except.error e := by
  rcases hc : checkTerms t with e | u
  · exact ⟨e, rfl⟩
  · cases u
    exact absurd ((checkTerms_ok_iff t).mp hc) h

theorem monthlyPayment_pos (t : LoanTerms) (h : validTerms t) :
    0 < monthlyPaymentOf t := by
  obtain ⟨hP, hn, hr⟩ := h
  unfold monthlyPaymentOf
  by_cases h0 : t.annualInterestRate = 0
  · rw [if_pos h0]
    have hn' : (0 : ℚ) < t.termMonths := by
      exact_mod_cast Nat.pos_of_ne_zero (by omega)
    exact div_pos hP hn'
  · rw [if_neg h0]
    have hr' : 0 < t.annualInterestRate := lt_of_le_of_ne hr (Ne.symm h0)
    have hrpos : 0 < t.annualInterestRate / 12 := by positivity
    have hq : 1 < 1 + t.annualInterestRate / 12 := by linarith
    have hqn : 1 < (1 + t.annualInterestRate / 12) ^ t.termMonths :=
      one_lt_pow₀ hq (by omega)
    have hnum : 0 < t.principal * (t.annualInterestRate / 12) *
        (1 + t.annualInterestRate / 12) ^ t.termMonths := by positivity
    exact div_pos hnum (by linarith)

theorem initial_inv (t : LoanTerms) (h : validTerms t) :
    (1 + t.annualInterestRate / 12) ^ t.termMonths * t.principal
      = monthlyPaymentOf t * geomSum (1 + t.annualInterestRate / 12) t.termMonths := by
  obtain ⟨hP, hn, hr⟩ := h
  by_cases h0 : t.annualInterestRate = 0
  · rw [h0]
    have hn' : (0 : ℚ) < t.termMonths := by
      exact_mod_cast Nat.pos_of_ne_zero (by omega)
    simp [monthlyPaymentOf, h0, geomSum_one]
    field_simp
  · unfold monthlyPaymentOf
    rw [if_neg h0]
    have hr' : 0 < t.annualInterestRate := lt_of_le_of_ne hr (Ne.symm h0)
    have hrpos : 0 < t.annualInterestRate / 12 := by positivity
    have hq : 1 < 1 + t.annualInterestRate / 12 := by linarith
    have hqn : 1 < (1 + t.annualInterestRate / 12) ^ t.termMonths :=
      one_lt_pow₀ hq (by omega)
    have hS : (t.annualInterestRate / 12) *
        geomSum (1 + t.annualInterestRate / 12) t.termMonths
        = (1 + t.annualInterestRate / 12) ^ t.termMonths - 1 := by
      have hm := mul_geomSum (1 + t.annualInterestRate / 12) t.termMonths
      calc (t.annualInterestRate / 12) *
            geomSum (1 + t.annualInterestRate / 12) t.termMonths
          = (1 + t.annualInterestRate / 12 - 1) *
            geomSum (1 + t.annualInterestRate / 12) t.termMonths := by ring
        _ = (1 + t.annualInterestRate / 12) ^ t.termMonths - 1 := hm
    rw [div_mul_eq_mul_div, eq_div_iff (by linarith :
      (1 + t.annualInterestRate / 12) ^ t.termMonths - 1 ≠ 0)]
    calc (1 + t.annualInterestRate / 12) ^ t.termMonths * t.principal *
          ((1 + t.annualInterestRate / 12) ^ t.termMonths - 1)
        = t.principal * (1 + t.annualInterestRate / 12) ^ t.termMonths *
          ((1 + t.annualInterestRate / 12) ^ t.termMonths - 1) := by ring
      _ = t.principal * (1 + t.annualInterestRate / 12) ^ t.termMonths *
          ((t.annualInterestRate / 12) *
            geomSum (1 + t.annualInterestRate / 12) t.termMonths) := by rw [hS]
      _ = t.principal * (t.annualInterestRate / 12) *
          (1 + t.annualInterestRate / 12) ^ t.termMonths *
          geomSum (1 + t.annualInterestRate / 12) t.termMonths := by ring

theorem buildSchedule_ok_elim (t : LoanTerms) (l : List AmortizationEntry)
    (h : buildSchedule t = Except.ok l) :
    validTerms t ∧
      l = scheduleAux (monthlyPaymentOf t) (t.annualInterestRate / 12)
            t.termMonths 1 t.principal := by
  unfold buildSchedule at h
  rcases hc : checkTerms t with e | u
  · rw [hc] at h
    simp at h
  · cases u
    have hv := (checkTerms_ok_iff t).mp hc
    rw [hc] at h
    simp at h
    exact ⟨hv, h.symm⟩

theorem computeMonthlyPayment_ok (t : LoanTerms) (h : validTerms t) :
    computeMonthlyPayment t = Except.ok (monthlyPaymentOf t) := by
  unfold computeMonthlyPayment
  rw [(checkTerms_ok_iff t).mpr h]

theorem buildSchedule_ok (t : LoanTerms) (h : validTerms t) :
    buildSchedule t = Except.ok
      (scheduleAux (monthlyPaymentOf t) (t.annualInterestRate / 12)
        t.termMonths 1 t.principal) := by
  unfold buildSchedule
  rw [(checkTerms_ok_iff t).mpr h]

/-! ## Requirements-list lemmas -/

theorem parseRequirements_cons (l : String) (ls : List String) :
    parseRequirements (l :: ls) =
      if pyStrip l ≠ "" ∧ startsWithHash l = false then
        pyStrip l :: parseRequirements ls
      else parseRequirements ls := by
  unfold parseRequirements
  rw [List.filter_cons]
  by_cases h1 : pyStrip l = ""
  · simp [h1]
  · by_cases h2 : startsWithHash l
    · simp [h1, h2]
    · simp [h1, h2]

theorem reqSpec_cons (l : String) (ls : List String) :
    reqSpec (l :: ls) =
      if pyStrip l ≠ "" ∧ startsWithHash l = false then
        pyStrip l :: reqSpec ls
      else reqSpec ls := by
  unfold reqSpec
  rw [List.filterMap_cons]
  by_cases h : pyStrip l ≠ "" ∧ startsWithHash l = false
  · simp [h]
  · simp [h]

theorem parseRequirements_eq_spec (lines : List String) :
    parseRequirements lines = reqSpec lines := by
  induction lines with
  | nil => rfl
  | cons l ls ih =>
    rw [parseRequirements_cons, reqSpec_cons, ih]

/-! ## Claim theorems -/

/-- C1: the program's source is solely the packaging descriptor: its
statement list is the setuptools import, the two file reads, and the single
`setup()` call; it defines no functions (in particular neither
`computeMonthlyPayment` nor `buildSchedule`), no classes, and contains no
loop constructs. -/
theorem setupPy_only_packaging :
    setupPyModule =
      [ PyStmt.importFrom "setuptools" ["setup", "find_packages"],
        PyStmt.withOpenReadAssign "README.md" "long_description",
        PyStmt.withOpenFilterAssign "requirements.txt" "requirements",
        PyStmt.exprCallSetup ] ∧
    definedFunctions setupPyModule = [] ∧
    definedClasses setupPyModule = [] ∧
    setupPyModule.all (fun s => !isLoopStmt s) = true ∧
    "computeMonthlyPayment" ∉ definedFunctions setupPyModule ∧
    "buildSchedule" ∉ definedFunctions setupPyModule := by
  refine ⟨rfl, rfl, rfl, rfl, ?_, ?_⟩ <;>
    simp [definedFunctions, setupPyModule]

/-- C9: the requirements list is exactly the stripped forms of the lines
that are non-blank after stripping and whose raw line does not start with
`#`; an indented comment line such as `"  # dev deps"` is not filtered
out. -/
theorem requirements_filter_characterization :
    (∀ lines : List String, parseRequirements lines = reqSpec lines) ∧
    parseRequirements
        ["requests>=2.28.0\n", "  # dev deps\n", "\n", "# core\n", " pytest \n"]
      = ["requests>=2.28.0", "# dev deps", "pytest"] := by
  constructor
  · exact parseRequirements_eq_spec
  · rfl

/-- C10: `install_requires` (the first three parsed requirements) and the
dev extra (the rest) partition the parsed requirements list: their
concatenation is the whole list and `install_requires` has
`min 3 (length)` entries. -/
theorem requirements_partition (lines : List String) :
    installRequires lines ++ devRequires lines = parseRequirements lines ∧
    (installRequires lines).length = min 3 (parseRequirements lines).length ∧
    devRequires lines = (parseRequirements lines).drop 3 :=
  ⟨List.take_append_drop 3 (parseRequirements lines),
   List.length_take 3 (parseRequirements lines), rfl⟩

/-- C2: for valid terms with positive rate, `computeMonthlyPayment` returns
`principal * r * (1+r)^termMonths / ((1+r)^termMonths - 1)` with
`r = annualInterestRate / 12`. -/
theorem computeMonthlyPayment_formula (t : LoanTerms) (h : validTerms t)
    (hr : 0 < t.annualInterestRate) :
    computeMonthlyPayment t = Except.ok
      (t.principal * (t.annualInterestRate / 12) *
        (1 + t.annualInterestRate / 12) ^ t.termMonths /
        ((1 + t.annualInterestRate / 12) ^ t.termMonths - 1)) := by
  rw [computeMonthlyPayment_ok t h]
  unfold monthlyPaymentOf
  rw [if_neg (by intro h0; rw [h0] at hr; exact lt_irrefl 0 hr)]

theorem computeMonthlyPayment_formula_witness :
    computeMonthlyPayment ⟨100, 12, 2⟩ = Except.ok
      ((100 : ℚ) * ((12 : ℚ) / 12) * (1 + (12 : ℚ) / 12) ^ (2 : ℕ) /
        ((1 + (12 : ℚ) / 12) ^ (2 : ℕ) - 1)) :=
  computeMonthlyPayment_formula ⟨100, 12, 2⟩
    ⟨by norm_num, by norm_num, by norm_num⟩ (by norm_num)

/-- C3: both operations fail with an `InvalidInputError` exactly when the
input constraints are violated, and return a result (nothing partially
computed) exactly when the input is valid. -/
theorem engine_error_iff_invalid (t : LoanTerms) :
    ((∃ e, computeMonthlyPayment t = Except.error e) ↔ ¬ validTerms t) ∧
    ((∃ v, computeMonthlyPayment t = Except.ok v) ↔ validTerms t) ∧
    ((∃ e, buildSchedule t = Except.error e) ↔ ¬ validTerms t) ∧
    ((∃ l, buildSchedule t = Except.ok l) ↔ validTerms t) := by
  by_cases h : validTerms t
  · refine ⟨?_, ?_, ?_, ?_⟩ <;>
      simp [computeMonthlyPayment_ok t h, buildSchedule_ok t h, h]
  · obtain ⟨e, he⟩ := checkTerms_err t h
    have hc : computeMonthlyPayment t = Except.error e := by
      unfold computeMonthlyPayment
      rw [he]
    have hb : buildSchedule t = Except.error e := by
      unfold buildSchedule
      rw [he]
    refine ⟨?_, ?_, ?_, ?_⟩ <;> simp [hc, hb, h]

/-- C8: `buildSchedule` is deterministic: identical inputs yield identical
schedules (it is a pure function of `LoanTerms`). -/
theorem buildSchedule_deterministic (t₁ t₂ : LoanTerms) (h : t₁ = t₂) :
    buildSchedule t₁ = buildSchedule t₂ :=
  congrArg buildSchedule h

theorem buildSchedule_deterministic_witness :
    buildSchedule ⟨200000, 6/100, 360⟩ = buildSchedule ⟨200000, 6/100, 360⟩ :=
  buildSchedule_deterministic ⟨200000, 6/100, 360⟩ ⟨200000, 6/100, 360⟩ rfl

theorem scheduleAux_one (A r : ℚ) (idx : ℕ) (B : ℚ) :
    scheduleAux A r 1 idx B = [⟨idx, B * r + B, B * r, B, 0⟩] := rfl

/-- C4: for every schedule the engine returns, the principal portions over
all entries sum to exactly the principal (exact rational arithmetic, hence
within any rounding tolerance). -/
theorem schedule_principal_sum (t : LoanTerms) (l : List AmortizationEntry)
    (h : buildSchedule t = Except.ok l) :
    (l.map (fun e => e.principalPortion)).sum = t.principal := by
  obtain ⟨hv, hl⟩ := buildSchedule_ok_elim t l h
  subst hl
  exact scheduleAux_sum_principal _ _ _ _ _ hv.2.1

theorem schedule_principal_sum_witness :
    (([⟨1, 100, 0, 100, 0⟩] : List AmortizationEntry).map
        (fun e => e.principalPortion)).sum = (100 : ℚ) := by
  have hb : buildSchedule ⟨100, 0, 1⟩ = Except.ok [⟨1, 100, 0, 100, 0⟩] := by
    rw [buildSchedule_ok ⟨100, 0, 1⟩ ⟨by norm_num, by norm_num, by norm_num⟩]
    norm_num [scheduleAux_one]
  exact schedule_principal_sum ⟨100, 0, 1⟩ _ hb

/-- C5: every schedule the engine returns has exactly `termMonths` entries,
and every entry (hence in particular every entry except possibly the last)
satisfies `interestPortion + principalPortion = paymentAmount` exactly. -/
theorem schedule_length_and_split (t : LoanTerms) (l : List AmortizationEntry)
    (h : buildSchedule t = Except.ok l) :
    l.length = t.termMonths ∧
    ∀ e ∈ l, e.interestPortion + e.principalPortion = e.paymentAmount := by
  obtain ⟨hv, hl⟩ := buildSchedule_ok_elim t l h
  subst hl
  obtain ⟨hP, hn, hr0⟩ := hv
  have hr : 0 ≤ t.annualInterestRate / 12 := by positivity
  have hA : 0 ≤ monthlyPaymentOf t := le_of_lt (monthlyPayment_pos t ⟨hP, hn, hr0⟩)
  refine ⟨scheduleAux_length _ _ _ _ _, ?_⟩
  intro e he
  exact (scheduleAux_entries _ _ hr hA _ _ _ (initial_inv t ⟨hP, hn, hr0⟩) e he).2

theorem schedule_length_and_split_witness :
    (([⟨1, 240, 120, 120, 0⟩] : List AmortizationEntry).length = 1) ∧
    ((120 : ℚ) + 120 = 240) := by
  have hb : buildSchedule ⟨120, 12, 1⟩ = Except.ok [⟨1, 240, 120, 120, 0⟩] := by
    rw [buildSchedule_ok ⟨120, 12, 1⟩ ⟨by norm_num, by norm_num, by norm_num⟩]
    norm_num [scheduleAux_one]
  have h := schedule_length_and_split ⟨120, 12, 1⟩ _ hb
  exact ⟨h.1, h.2 ⟨1, 240, 120, 120, 0⟩ (by simp)⟩

/-- C6: in every schedule the engine returns, the remaining balances are
monotonically non-increasing along the entries, and the final entry's
remaining balance is exactly 0. -/
theorem schedule_balance_monotone_final (t : LoanTerms) (l : List AmortizationEntry)
    (h : buildSchedule t = Except.ok l) :
    List.Chain' (fun a b => b.remainingBalance ≤ a.remainingBalance) l ∧
    ∀ e, l.getLast? = some e → e.remainingBalance = 0 := by
  obtain ⟨hv, hl⟩ := buildSchedule_ok_elim t l h
  subst hl
  obtain ⟨hP, hn, hr0⟩ := hv
  have hr : 0 ≤ t.annualInterestRate / 12 := by positivity
  have hA : 0 ≤ monthlyPaymentOf t := le_of_lt (monthlyPayment_pos t ⟨hP, hn, hr0⟩)
  constructor
  · have hchain := scheduleAux_chain _ _ hr hA _ 1 _ (initial_inv t ⟨hP, hn, hr0⟩)
    have h1 : List.Chain' (fun x y : ℚ => y ≤ x)
        (t.principal ::
          ((scheduleAux (monthlyPaymentOf t) (t.annualInterestRate / 12)
            t.termMonths 1 t.principal).map (fun e => e.remainingBalance))) := hchain
    have h2 := h1.tail
    simp only [List.tail_cons] at h2
    rw [List.chain'_map] at h2
    exact h2
  · intro e he
    exact scheduleAux_last _ _ _ _ _ e he

theorem schedule_balance_monotone_final_witness :
    List.Chain' (fun a b => b.remainingBalance ≤ a.remainingBalance)
      ([⟨1, 60, 0, 60, 0⟩] : List AmortizationEntry) ∧
    (⟨1, 60, 0, 60, 0⟩ : AmortizationEntry).remainingBalance = 0 := by
  have hb : buildSchedule ⟨60, 0, 1⟩ = Except.ok [⟨1, 60, 0, 60, 0⟩] := by
    rw [buildSchedule_ok ⟨60, 0, 1⟩ ⟨by norm_num, by norm_num, by norm_num⟩]
    norm_num [scheduleAux_one]
  have h := schedule_balance_monotone_final ⟨60, 0, 1⟩ _ hb
  exact ⟨h.1, h.2 ⟨1, 60, 0, 60, 0⟩ rfl⟩

/-- C7: for valid terms with zero rate, the payment is
`principal / termMonths`, and every entry of the schedule has zero interest
portion and payment amount `principal / termMonths` exactly. -/
theorem zero_rate_flat_schedule (t : LoanTerms) (l : List AmortizationEntry)
    (hv : validTerms t) (h0 : t.annualInterestRate = 0)
    (hl : buildSchedule t = Except.ok l) :
    computeMonthlyPayment t = Except.ok (t.principal / t.termMonths) ∧
    ∀ e ∈ l, e.interestPortion = 0 ∧
      e.paymentAmount = t.principal / t.termMonths := by
  obtain ⟨_, hsch⟩ := buildSchedule_ok_elim t l hl
  subst hsch
  have hA0 : monthlyPaymentOf t = t.principal / t.termMonths := by
    unfold monthlyPaymentOf
    rw [if_pos h0]
  constructor
  · rw [computeMonthlyPayment_ok t hv, hA0]
  · intro e he
    have hr : 0 ≤ t.annualInterestRate / 12 := by rw [h0]; norm_num
    have hA : 0 ≤ monthlyPaymentOf t := le_of_lt (monthlyPayment_pos t hv)
    constructor
    · have hz : t.annualInterestRate / 12 = 0 := by rw [h0]; norm_num
      rw [hz] at he
      exact scheduleAux_interest_zero _ _ _ _ e he
    · rw [← hA0]
      exact (scheduleAux_entries _ _ hr hA _ _ _ (initial_inv t hv) e he).1

theorem zero_rate_flat_schedule_witness :
    computeMonthlyPayment ⟨80, 0, 1⟩ = Except.ok ((80 : ℚ) / ((1 : ℕ) : ℚ)) ∧
    ((⟨1, 80, 0, 80, 0⟩ : AmortizationEntry).interestPortion = 0 ∧
     (⟨1, 80, 0, 80, 0⟩ : AmortizationEntry).paymentAmount
       = (80 : ℚ) / ((1 : ℕ) : ℚ)) := by
  have hv : validTerms ⟨80, 0, 1⟩ := ⟨by norm_num, by norm_num, by norm_num⟩
  have hb : buildSchedule ⟨80, 0, 1⟩ = Except.ok [⟨1, 80, 0, 80, 0⟩] := by
    rw [buildSchedule_ok ⟨80, 0, 1⟩ hv]
    norm_num [scheduleAux_one]
  have h := zero_rate_flat_schedule ⟨80, 0, 1⟩ _ hv rfl hb
  exact ⟨h.1, h.2 ⟨1, 80, 0, 80, 0⟩ (by simp)⟩

theorem engine_error_iff_invalid_witness :
    ∃ e, computeMonthlyPayment ⟨0, 0, 0⟩ = Except.error e :=
  (engine_error_iff_invalid ⟨0, 0, 0⟩).1.mpr (by norm_num [validTerms])

theorem requirements_partition_witness :
    installRequires ["a", "b", "c", "d"] ++ devRequires ["a", "b", "c", "d"]
      = parseRequirements ["a", "b", "c", "d"] :=
  (requirements_partition ["a", "b", "c", "d"]).1
